import Mathlib

/-!
Verification of the VideoLab batch video composition engine.

Shallow embedding of the job-planning, duration-reconciliation, caption
timing, text wrapping, frame-overlay and render-pipeline logic of the
repository (apps/api/services/processing_service.py,
apps/api/services/video_render_service.py, apps/api/batch_core.py,
apps/api/utils/text_renderer.py), together with theorems settling the
stated properties of that code.

Conventions of the embedding:
- Python floats are modelled as rationals; the float operations involved
  in the verified properties (comparisons, min, division, floor) are
  exact on the inputs considered.
- Python int(x) truncates toward zero; pyInt models it on rationals.
- Python lists of file paths and caption rows are modelled as Lean lists
  of strings and lists of strings.
- Out-of-range list indexing cannot occur on the executed paths of the
  embedded code (proved where relevant), so indexing is modelled with
  List.getD.
-/

/-- Python int() applied to a rational: truncation toward zero. -/
def pyInt (q : ℚ) : ℤ :=
  if 0 ≤ q then ⌊q⌋ else -⌊-q⌋

/-- A render job: (video path, optional audio path, caption segments, combo index).
    Mirrors the tuples built by processing_service._build_all_jobs and
    _build_unique_jobs. -/
abbrev RenderJob := String × Option String × List String × ℕ

/-- Embedding of processing_service._build_all_jobs: cartesian product of
    videos (outer loop), enumerated caption rows (middle loop) and audios
    (inner loop, or a single None placeholder when no audio exists).
    The Python code appends to a growing jobs list; the fold mirrors that. -/
def build_all_jobs (vids auds : List String) (rows : List (List String)) : List RenderJob :=
  vids.foldl
    (fun jobs vpath =>
      (rows.enum).foldl
        (fun jobs p =>
          if auds.isEmpty then jobs ++ [(vpath, none, p.2, p.1)]
          else auds.foldl (fun jobs apath => jobs ++ [(vpath, some apath, p.2, p.1)]) jobs)
        jobs)
    []

/-- Order of emission the spec describes for the cartesian builder:
    video-outer, caption-middle (with its index), audio-inner.
    Second definition written from the spec words, compared with
    build_all_jobs in the theorems. -/
def cartesianOrderSpec (vids auds : List String) (rows : List (List String)) : List RenderJob :=
  vids.flatMap (fun vpath =>
    (rows.enum).flatMap (fun p =>
      if auds.isEmpty then [(vpath, none, p.2, p.1)]
      else auds.map (fun apath => (vpath, some apath, p.2, p.1))))

/-- Number of steps t' before step t at which the round-robin over V videos
    picked video b, i.e. the value of picks_per_video[b] read at step t of
    processing_service._build_unique_jobs. -/
def cnt (V t b : ℕ) : ℕ :=
  (List.range t).countP (fun s => decide (s % V = b))

/-- Loop body of processing_service._build_unique_jobs over the remaining
    step indices, threading the picks_per_video counters. At step t:
    b = t mod V, k = picks_per_video[b] (then incremented),
    cap_idx = (b mod C + k) mod C, and when audio exists
    aud_idx = (b mod A + k) mod A. -/
def uniqueLoop (vids auds : List String) (rows : List (List String)) (V C A : ℕ) :
    List ℕ → List ℕ → List RenderJob
  | _, [] => []
  | picks, t :: ts =>
    let b := t % V
    let k := picks.getD b 0
    let capIdx := (b % C + k) % C
    let apath : Option String :=
      if auds.isEmpty then none else some (auds.getD ((b % A + k) % A) "")
    let segs : List String := if 0 < C then rows.getD capIdx [] else []
    (vids.getD b "", apath, segs, capIdx) ::
      uniqueLoop vids auds rows V C A (picks.set b (k + 1)) ts

/-- Embedding of processing_service._build_unique_jobs:
    V = number of videos, C = max 1 (number of caption rows),
    A = number of audios or 1 when none, N = min want (V*C*A);
    round-robin over videos with staggered caption and audio offsets. -/
def build_unique_jobs (vids auds : List String) (rows : List (List String))
    (want : ℕ) : List RenderJob :=
  let V := vids.length
  let C := max 1 rows.length
  let A := if auds.isEmpty then 1 else auds.length
  if V = 0 then []
  else uniqueLoop vids auds rows V C A (List.replicate V 0)
    (List.range (min want (V * C * A)))

/-- The job _build_unique_jobs emits at step t, written in closed form:
    video index t mod V, prior-pick count k = cnt V t (t mod V). -/
def uniqueJobAt (vids auds : List String) (rows : List (List String))
    (V C A : ℕ) (t : ℕ) : RenderJob :=
  let b := t % V
  let k := cnt V t b
  let capIdx := (b % C + k) % C
  let apath : Option String :=
    if auds.isEmpty then none else some (auds.getD ((b % A + k) % A) "")
  let segs : List String := if 0 < C then rows.getD capIdx [] else []
  (vids.getD b "", apath, segs, capIdx)

/-- Truthiness of the Python value config.fixed_seconds (float or None):
    None and 0.0 are falsy, every other float is truthy. -/
def pyTruthy : Option ℚ → Bool
  | none => false
  | some q => decide (q ≠ 0)

/-- Embedding of the target-duration reconciliation in
    video_render_service.process_video (and identically in
    batch_core.process_video_with_segments):
    fixed policy guarded by the truthiness of fixed_seconds, then audio
    policy guarded by a positive probed audio duration, then video policy,
    else the shortest rule. -/
def target_duration (policy : String) (fixedSeconds : Option ℚ)
    (videoDur audioDur : ℚ) : ℚ :=
  if policy = "fixed" ∧ pyTruthy fixedSeconds = true then fixedSeconds.getD 0
  else if policy = "audio" ∧ 0 < audioDur then audioDur
  else if policy = "video" then videoDur
  else if 0 < audioDur then min videoDur audioDur else videoDur

/-- Per-segment duration: target / number of caption segments when any
    exist, else the full target (video_render_service.process_video). -/
def segment_duration (target : ℚ) (numSegments : ℕ) : ℚ :=
  if numSegments ≠ 0 then target / numSegments else target

/-- Embedding of the active-caption selection in the frame loop of
    video_render_service.process_video:
    min(int(time / segment_duration), n - 1) when segment_duration > 0,
    else 0; time is the frame time and n the number of rendered bitmaps. -/
def segment_index (time segDur : ℚ) (n : ℕ) : ℤ :=
  if 0 < segDur then min (pyInt (time / segDur)) ((n : ℤ) - 1) else 0

/-- Whitespace test used to model Python str.split() and str.strip(). -/
def isWS (c : Char) : Bool := c.isWhitespace

/-- Helper for pySplit: accumulates the current word in reverse. -/
def pySplitAux : List Char → List Char → List (List Char)
  | [], acc => if acc.isEmpty then [] else [acc.reverse]
  | c :: rest, acc =>
    if isWS c then
      if acc.isEmpty then pySplitAux rest [] else acc.reverse :: pySplitAux rest []
    else pySplitAux rest (c :: acc)

/-- Python text.split(): split on whitespace runs, dropping empty pieces.
    Strings are modelled as character lists so the splitting is fully
    executable and provable. -/
def pySplit (s : List Char) : List (List Char) :=
  pySplitAux s []

/-- Python s.strip(): drop whitespace from both ends. -/
def pyStrip (s : List Char) : List Char :=
  ((s.dropWhile isWS).reverse.dropWhile isWS).reverse

/-- Embedding of text_renderer._hard_wrap_text (and the identical
    batch_core._hard_wrap_dual_font): greedy word wrap. The measured
    pixel width of a candidate line comes from font metrics
    (_calc_line_size), modelled by the parameter measure. The Python code
    joins the produced lines with newlines; the embedding returns the list
    of lines directly. One loop iteration of the wrap: try to extend the
    current line with the next word; on overflow flush the current line
    (when non-empty) and start a new line with the word. -/
def wrapStep (measure : List Char → ℕ) (maxWidth : ℕ)
    (st : List (List Char) × List Char) (word : List Char) :
    List (List Char) × List Char :=
  let test := pyStrip (st.2 ++ ' ' :: word)
  if measure test ≤ maxWidth then (st.1, test)
  else (if st.2.isEmpty then st.1 else st.1 ++ [st.2], word)

/-- Greedy word wrap of text_renderer._hard_wrap_text: fold wrapStep over
    the whitespace-split words, then flush the last current line. -/
def hard_wrap_text (measure : List Char → ℕ) (text : List Char) (maxWidth : ℕ) :
    List (List Char) :=
  let fin := (pySplit text).foldl (wrapStep measure maxWidth) ([], [])
  if fin.2.isEmpty then fin.1 else fin.1 ++ [fin.2]

/-- Weights of batch_core.select_jobs_diverse (defaults: base 6, audio 4,
    caption 3, combo 1, repeat bonus 8). -/
structure SelWeights where
  base : ℚ
  audio : ℚ
  caption : ℚ
  combo : ℚ
  repeatBonus : ℚ

/-- Target mix of batch_core.select_jobs_diverse (defaults: base 0.70,
    caption 0.20, audio 0.10). -/
structure SelMix where
  base : ℚ
  caption : ℚ
  audio : ℚ

/-- Default weights of select_jobs_diverse. -/
def defaultWeights : SelWeights := ⟨6, 4, 3, 1, 8⟩

/-- Default target mix of select_jobs_diverse. -/
def defaultMix : SelMix := ⟨7/10, 2/10, 1/10⟩

/-- Mutable selection state of one select_jobs_diverse run: per-token
    Counters and the bounded recency deques (most recent element first;
    Python appends right and drops left, modelled by cons then take). -/
structure SelState where
  countBase : String → ℕ
  countAudio : String → ℕ
  countCaption : String → ℕ
  countCombo : ℕ → ℕ
  lastBases : List String
  lastAudios : List String
  lastCaptions : List String
  numSelected : ℕ

/-- Initial selection state: empty Counters and deques. -/
def initSelState : SelState :=
  ⟨fun _ => 0, fun _ => 0, fun _ => 0, fun _ => 0, [], [], [], 0⟩

/-- Counter increment. -/
def bump {α : Type} [DecidableEq α] (f : α → ℕ) (k : α) : α → ℕ :=
  fun x => if x = k then f x + 1 else f x

/-- Embedding of batch_core._ratio_penalty: zero for an empty selection,
    else strength times the overage of the current selected fraction of
    the token over the target share. -/
def ratio_penalty (total cntVal : ℕ) (targetShare strength : ℚ) : ℚ :=
  if total ≤ 0 then 0 else strength * max 0 ((cntVal : ℚ) / (total : ℚ) - targetShare)

/-- Embedding of the score closure inside batch_core.select_jobs_diverse.
    tokens models batch_core.job_tokens, which lowercases and strips the
    video and audio path stems and the punctuation of the first caption
    segment; that path munging is filesystem-dependent and is passed in
    as a parameter. Floats are modelled as rationals. -/
def selScore (tokens : RenderJob → String × String × String) (w : SelWeights)
    (mix : SelMix) (strength windowPenalty : ℚ) (st : SelState) (job : RenderJob) : ℚ :=
  let base := (tokens job).1
  let audio := (tokens job).2.1
  let caption := (tokens job).2.2
  let comboIdx := job.2.2.2
  (st.countBase base : ℚ) * w.base
    + (st.countAudio audio : ℚ) * w.audio
    + (st.countCaption caption : ℚ) * w.caption
    + (st.countCombo comboIdx : ℚ) * w.combo
    + (if base ∈ st.lastBases then w.repeatBonus else 0)
    + (if audio ∈ st.lastAudios then windowPenalty else 0)
    + (if caption ∈ st.lastCaptions then windowPenalty else 0)
    + ratio_penalty st.numSelected (st.countAudio audio) mix.audio strength
    + ratio_penalty st.numSelected (st.countCaption caption) mix.caption strength
    + ratio_penalty st.numSelected (st.countBase base) mix.base (strength * (6/10))

/-- State update after selecting a job: bump the four Counters, push the
    tokens onto the recency deques (base deque bounded by 2, audio and
    caption deques by recentWindow). -/
def selUpdate (tokens : RenderJob → String × String × String) (recentWindow : ℕ)
    (st : SelState) (job : RenderJob) : SelState :=
  let base := (tokens job).1
  let audio := (tokens job).2.1
  let caption := (tokens job).2.2
  let comboIdx := job.2.2.2
  ⟨bump st.countBase base, bump st.countAudio audio, bump st.countCaption caption,
    bump st.countCombo comboIdx,
    (base :: st.lastBases).take 2,
    (audio :: st.lastAudios).take recentWindow,
    (caption :: st.lastCaptions).take recentWindow,
    st.numSelected + 1⟩

/-- Python min(avail, key=score): the first element attaining the minimal
    key. -/
def pymin {α : Type} (key : α → ℚ) (x : α) (xs : List α) : α :=
  xs.foldl (fun b y => if key y < key b then y else b) x

/-- Selection loop of batch_core.select_jobs_diverse. Python tracks the
    already-selected jobs by object identity (a set of id(job)); every
    candidate is a freshly constructed tuple, so identity is modelled by
    the position of the job in the pool. Each iteration filters the
    not-yet-used candidates, breaks if none remain, picks the minimum-score
    one and updates the state. -/
def selectLoop (tokens : RenderJob → String × String × String) (w : SelWeights)
    (mix : SelMix) (strength windowPenalty : ℚ) (recentWindow : ℕ)
    (rnd : List RenderJob) :
    ℕ → List ℕ → SelState → List RenderJob → List RenderJob
  | 0, _, _, sel => sel
  | fuel + 1, used, st, sel =>
    match (rnd.enum).filter (fun p => !(used.contains p.1)) with
    | [] => sel
    | a :: rest =>
      let best := pymin (fun p => selScore tokens w mix strength windowPenalty st p.2) a rest
      selectLoop tokens w mix strength windowPenalty recentWindow rnd fuel
        (best.1 :: used) (selUpdate tokens recentWindow st best.2) (sel ++ [best.2])

/-- Embedding of batch_core.select_jobs_diverse. The initial
    random.shuffle of the pool is a permutation of the candidate list;
    the theorems quantify over every pool order, so the shuffle is
    modelled by the (arbitrary) order of the input list. -/
def select_jobs_diverse (tokens : RenderJob → String × String × String)
    (jobs : List RenderJob) (targetN : ℕ) (mix : SelMix)
    (strength windowPenalty : ℚ) (recentWindow : ℕ) (w : SelWeights) :
    List RenderJob :=
  if jobs.isEmpty then []
  else selectLoop tokens w mix strength windowPenalty recentWindow jobs
    (min targetN jobs.length) [] initSelState []

/-- Shape of a numpy image: height, width, channels. -/
structure ImgShape where
  h : ℕ
  w : ℕ
  c : ℕ

/-- Text anchor of overlay_text_on_frame: the three named positions or a
    raw coordinate pair. -/
inductive OverlayPos where
  | center
  | top
  | bottom
  | custom (x y : ℤ)

/-- Downscale step of overlay_text_on_frame: a bitmap exceeding the frame
    is resized by the fitting scale times 0.9 (Python int() truncation,
    then max 1 per dimension); otherwise the bitmap keeps its size. -/
def overlayDims (frame text : ImgShape) : ℕ × ℕ :=
  if frame.h < text.h ∨ frame.w < text.w then
    let scale : ℚ :=
      min ((frame.h : ℚ) / (text.h : ℚ)) ((frame.w : ℚ) / (text.w : ℚ)) * (9/10)
    (max 1 (pyInt ((text.h : ℚ) * scale)).toNat,
     max 1 (pyInt ((text.w : ℚ) * scale)).toNat)
  else (text.h, text.w)

/-- Embedding of text_renderer.overlay_text_on_frame (the batch_core copy
    is identical up to extra blending branches that write into the same
    region). Returns the shape of the returned frame together with the
    blended region as (x, y, text height, text width); none models the
    early return for an empty text image. After the optional downscale
    (overlayDims) the anchor is computed from the position and margins and
    clamped into [0, frameDim - textDim]. Python // is floor division,
    modelled by Int.fdiv. -/
def overlay_text_on_frame (frame text : ImgShape) (pos : OverlayPos)
    (marginPct : ℚ) : ImgShape × Option (ℤ × ℤ × ℕ × ℕ) :=
  if text.h * text.w * text.c = 0 then (frame, none)
  else
    let fh := frame.h
    let fw := frame.w
    let th := (overlayDims frame text).1
    let tw := (overlayDims frame text).2
    let _mx : ℤ := pyInt ((fw : ℚ) * marginPct)
    let my : ℤ := pyInt ((fh : ℚ) * marginPct)
    let xy : ℤ × ℤ :=
      match pos with
      | .center => (((fw : ℤ) - tw).fdiv 2, ((fh : ℤ) - th).fdiv 2)
      | .bottom => (((fw : ℤ) - tw).fdiv 2, (fh : ℤ) - th - my)
      | .top => (((fw : ℤ) - tw).fdiv 2, my)
      | .custom a b => (a, b)
    let x := max 0 (min xy.1 ((fw : ℤ) - tw))
    let y := max 0 (min xy.2 ((fh : ℤ) - th))
    (frame, some (x, y, th, tw))

/-- What ends up at the requested output path of one render job. -/
inductive Delivered where
  | silent
  | muxed
deriving DecidableEq

/-- Configuration fields of ProcessingConfig used by the render pipeline.
    canvas_size is a pair of Python ints, modelled as integers. -/
structure RenderConfig where
  canvasW : ℤ
  canvasH : ℤ
  durationPolicy : String
  fixedSeconds : Option ℚ
  mixAudio : Bool

/-- Environment of one run of video_render_service.process_video
    (identically batch_core.process_video_with_segments): whether the
    probe succeeds, whether the decoder and the writer open, whether an
    exception is raised in the body between opening them and releasing
    them (text pre-rendering, audio probe, duration math, the frame
    loop), whether an audio track is present, and whether the moviepy
    muxing inside _add_audio_to_video raises. -/
structure RenderEnv where
  probeOk : Bool
  capOpens : Bool
  writerOpens : Bool
  bodyExc : Bool
  hasAudio : Bool
  muxFails : Bool

/-- Observable outcome of one render: the returned boolean, whether the
    decoder and writer were opened and whether release() was called on
    them before returning, the canvas dimensions the loop writes, and the
    delivered output. -/
structure RenderResult where
  success : Bool
  capOpened : Bool
  capReleased : Bool
  writerOpened : Bool
  writerReleased : Bool
  outW : ℤ
  outH : ℤ
  delivered : Option Delivered
deriving DecidableEq

/-- Embedding of _ensure_even (int(value) & ~1): clearing the least
    significant bit of a two-complement integer subtracts its parity
    bit. -/
def ensure_even (v : ℤ) : ℤ := v - v % 2

/-- Control-flow embedding of video_render_service.process_video. The
    whole body is wrapped in try/except returning False, so a raise at
    any stage yields success = false; cap.release() and writer.release()
    are executed only on the straight-line path after the frame loop; a
    muxing failure is caught inside _add_audio_to_video, which then moves
    the silent temp video to the output path (the temp file still exists
    at every raise point inside its try block), after which process_video
    returns True. -/
def process_video (cfg : RenderConfig) (env : RenderEnv) : RenderResult :=
  if env.probeOk then
    let ow := ensure_even cfg.canvasW
    let oh := ensure_even cfg.canvasH
    if env.capOpens then
      if env.writerOpens then
        if env.bodyExc then
          ⟨false, true, false, true, false, ow, oh, none⟩
        else if env.hasAudio then
          if env.muxFails then
            ⟨true, true, true, true, true, ow, oh, some .silent⟩
          else
            ⟨true, true, true, true, true, ow, oh, some .muxed⟩
        else
          ⟨true, true, true, true, true, ow, oh, some .silent⟩
      else
        ⟨false, true, false, false, false, ow, oh, none⟩
    else
      ⟨false, false, false, false, false, ow, oh, none⟩
  else
    ⟨false, false, false, false, false, 0, 0, none⟩

/-- Folding a step that appends a block per element equals appending the
    concatenation of the blocks. -/
theorem foldl_app {α β : Type} (step : List β → α → List β) (f : α → List β)
    (h : ∀ acc x, step acc x = acc ++ f x) :
    ∀ (l : List α) (init : List β), l.foldl step init = init ++ l.flatMap f := by
  intro l
  induction l with
  | nil => intro init; simp
  | cons x xs ih =>
    intro init
    simp [List.foldl_cons, h, ih, List.flatMap_cons]

/-- Sum of a pointwise-constant map. -/
theorem sum_map_const {γ : Type} (l : List γ) (g : γ → ℕ) (c : ℕ)
    (hg : ∀ x, g x = c) : (l.map g).sum = l.length * c := by
  induction l with
  | nil => simp
  | cons x xs ih => simp [hg, ih, Nat.succ_mul, Nat.add_comm]

/-- flatMap of singletons is map. -/
theorem flatMap_single {γ δ : Type} (l : List γ) (g : γ → δ) :
    (l.flatMap fun x => [g x]) = l.map g := by
  induction l with
  | nil => rfl
  | cons x xs ih => simp [List.flatMap_cons, ih]

/-- C2: for every list of V videos, C caption combinations and A audios,
    the cartesian builder emits exactly V*C*A jobs when A >= 1 and exactly
    V*C jobs (with audio None) when A = 0, ordered video-outer,
    caption-middle (with its index), audio-inner. -/
theorem build_all_jobs_cartesian (vids auds : List String) (rows : List (List String)) :
    build_all_jobs vids auds rows = cartesianOrderSpec vids auds rows
    ∧ (auds ≠ [] →
        (build_all_jobs vids auds rows).length
          = vids.length * rows.length * auds.length)
    ∧ (auds = [] →
        (build_all_jobs vids auds rows).length = vids.length * rows.length
        ∧ ∀ j ∈ build_all_jobs vids auds rows, j.2.1 = none) := by
  have inner : ∀ (vpath : String) (acc : List RenderJob) (p : ℕ × List String),
      (if auds.isEmpty then acc ++ [(vpath, none, p.2, p.1)]
       else auds.foldl (fun jobs apath => jobs ++ [(vpath, some apath, p.2, p.1)]) acc)
      = acc ++ (if auds.isEmpty then [(vpath, none, p.2, p.1)]
          else auds.map (fun apath => (vpath, some apath, p.2, p.1))) := by
    intro vpath acc p
    by_cases hA : auds.isEmpty
    · simp [hA]
    · simp only [hA, if_neg, Bool.false_eq_true, not_false_iff]
      rw [foldl_app _ (fun apath => [(vpath, some apath, p.2, p.1)]) (fun _ _ => rfl)]
      rw [flatMap_single]
  have main : build_all_jobs vids auds rows = cartesianOrderSpec vids auds rows := by
    unfold build_all_jobs cartesianOrderSpec
    rw [foldl_app _
      (fun vpath => (rows.enum).flatMap (fun p =>
        if auds.isEmpty then [(vpath, none, p.2, p.1)]
        else auds.map (fun apath => (vpath, some apath, p.2, p.1)))) ?_ vids []]
    · simp
    · intro acc vpath
      exact foldl_app _ _ (inner vpath) (rows.enum) acc
  have clen : ∀ vpath : String,
      ((rows.enum).flatMap (fun p =>
        if auds.isEmpty then [(vpath, none, p.2, p.1)]
        else auds.map (fun apath => (vpath, some apath, p.2, p.1)))).length
      = rows.length * (if auds.isEmpty then 1 else auds.length) := by
    intro vpath
    rw [List.length_flatMap]
    rw [sum_map_const _ _ (if auds.isEmpty then 1 else auds.length) ?_]
    · rw [List.enum_length]
    · intro p
      by_cases hA : auds.isEmpty <;> simp [hA]
  have tlen : (build_all_jobs vids auds rows).length
      = vids.length * (rows.length * (if auds.isEmpty then 1 else auds.length)) := by
    rw [main]
    unfold cartesianOrderSpec
    rw [List.length_flatMap]
    exact sum_map_const _ _ _ (fun vpath => clen vpath)
  refine ⟨main, ?_, ?_⟩
  · intro hA
    have hA' : auds.isEmpty = false := by
      cases auds with
      | nil => simp at hA
      | cons a as => rfl
    rw [tlen, hA']
    simp [Nat.mul_assoc]
  · intro hA
    subst hA
    refine ⟨by rw [tlen]; simp, ?_⟩
    intro j hj
    rw [main] at hj
    unfold cartesianOrderSpec at hj
    simp only [List.isEmpty_nil, if_true, List.mem_flatMap] at hj
    obtain ⟨v, _, p, _, hj⟩ := hj
    simp at hj
    rw [hj]

/-- C2 witness: concrete cartesian builds with and without audio. -/
theorem build_all_jobs_cartesian_witness :
    (build_all_jobs ["v1", "v2"] ["a1", "a2", "a3"] [["c1"], ["c2"]]).length = 2 * 2 * 3
    ∧ (build_all_jobs ["v1"] [] [["c1"]]).length = 1 * 1 :=
  ⟨(build_all_jobs_cartesian ["v1", "v2"] ["a1", "a2", "a3"] [["c1"], ["c2"]]).2.1
      (by decide),
   ((build_all_jobs_cartesian ["v1"] [] [["c1"]]).2.2 rfl).1⟩

/-- C3 counterexample: the schema admits policy fixed with
    fixed_seconds = 0 (ge=0, and None is also admitted); the code then
    falls through to the shortest rule, so the target is 6, not the
    configured fixedSeconds = 0 the claim requires. -/
theorem target_duration_fixed_counterexample :
    target_duration "fixed" (some 0) 10 6 = 6
    ∧ target_duration "fixed" (some 0) 10 6 ≠ 0 := by
  constructor <;> decide

/-- C3 amended: the reconciled target equals fixedSeconds when
    policy = fixed and fixedSeconds is set and nonzero (Python
    truthiness); policy = fixed with fixedSeconds unset or zero falls
    through to the shortest rule; audio policy applies when the audio
    duration is positive; video policy yields the video duration;
    shortest yields min(video, audio) when audio is present, else the
    video duration. Concretely fixed with fixedSeconds = 5 yields 5 and
    shortest with video 10 and audio 6 yields 6. -/
theorem target_duration_policy (p : String) (fs : Option ℚ) (v a : ℚ) :
    (p = "fixed" → pyTruthy fs = true → target_duration p fs v a = fs.getD 0)
    ∧ (p = "fixed" → pyTruthy fs = false →
        target_duration p fs v a = if 0 < a then min v a else v)
    ∧ (p = "audio" → 0 < a → target_duration p fs v a = a)
    ∧ (p = "video" → target_duration p fs v a = v)
    ∧ (p = "shortest" → target_duration p fs v a = if 0 < a then min v a else v)
    ∧ target_duration "fixed" (some 5) v a = 5
    ∧ target_duration "shortest" none 10 6 = 6 := by
  refine ⟨?_, ?_, ?_, ?_, ?_, ?_, by decide⟩
  · intro hp ht
    subst hp
    simp [target_duration, ht]
  · intro hp ht
    subst hp
    simp [target_duration, ht]
  · intro hp ha
    subst hp
    simp [target_duration, ha]
  · intro hp
    subst hp
    simp [target_duration]
  · intro hp
    subst hp
    simp [target_duration]
  · simp [target_duration, pyTruthy]

/-- C3 witness: fixed policy with fixedSeconds = 5 on video 10 and
    audio 6 yields 5. -/
theorem target_duration_policy_witness :
    target_duration "fixed" (some 5) 10 6 = 5 :=
  (target_duration_policy "fixed" (some 5) 10 6).1 rfl (by decide)

/-- C9: on every run whose probe succeeds, the canvas dimensions used by
    the render loop are ensure_even of the configured canvas_size; and
    ensure_even rounds every integer down to the nearest even integer
    (it is even, at most the input, and at least every even integer
    below the input). -/
theorem canvas_dimensions_even (cfg : RenderConfig) (env : RenderEnv)
    (h : env.probeOk = true) :
    (process_video cfg env).outW = ensure_even cfg.canvasW
    ∧ (process_video cfg env).outH = ensure_even cfg.canvasH
    ∧ (∀ v : ℤ, Even (ensure_even v) ∧ ensure_even v ≤ v
        ∧ ∀ e : ℤ, Even e → e ≤ v → e ≤ ensure_even v) := by
  obtain ⟨po, co, wo, be, ha, mf⟩ := env
  simp only at h
  subst h
  refine ⟨?_, ?_, ?_⟩
  · cases co <;> cases wo <;> cases be <;> cases ha <;> cases mf <;>
      simp [process_video]
  · cases co <;> cases wo <;> cases be <;> cases ha <;> cases mf <;>
      simp [process_video]
  · intro v
    refine ⟨⟨v / 2, by unfold ensure_even; omega⟩, by unfold ensure_even; omega, ?_⟩
    intro e he hle
    obtain ⟨k, hk⟩ := he
    unfold ensure_even
    omega

/-- C9 witness: odd configured 1081 x 1921 is used as 1080 x 1920. -/
theorem canvas_dimensions_even_witness :
    (process_video ⟨1081, 1921, "shortest", none, false⟩
        ⟨true, true, true, false, false, false⟩).outW = ensure_even 1081
    ∧ (process_video ⟨1081, 1921, "shortest", none, false⟩
        ⟨true, true, true, false, false, false⟩).outH = ensure_even 1921 :=
  ⟨(canvas_dimensions_even ⟨1081, 1921, "shortest", none, false⟩
      ⟨true, true, true, false, false, false⟩ rfl).1,
   (canvas_dimensions_even ⟨1081, 1921, "shortest", none, false⟩
      ⟨true, true, true, false, false, false⟩ rfl).2.1⟩

/-- C5: when the run reaches the muxing stage with an audio track and the
    moviepy muxing raises, the job still returns success and the silent
    composited video is delivered at the requested output path. -/
theorem mux_failure_degraded_success (cfg : RenderConfig) (env : RenderEnv)
    (h1 : env.probeOk = true) (h2 : env.capOpens = true)
    (h3 : env.writerOpens = true) (h4 : env.bodyExc = false)
    (h5 : env.hasAudio = true) (h6 : env.muxFails = true) :
    (process_video cfg env).success = true
    ∧ (process_video cfg env).delivered = some Delivered.silent := by
  obtain ⟨po, co, wo, be, ha, mf⟩ := env
  simp only at h1 h2 h3 h4 h5 h6
  subst h1; subst h2; subst h3; subst h4; subst h5; subst h6
  constructor <;> rfl

/-- C5 witness: concrete run with failing mux returns success with the
    silent video delivered. -/
theorem mux_failure_degraded_success_witness :
    (process_video ⟨1080, 1920, "shortest", none, false⟩
        ⟨true, true, true, false, true, true⟩).success = true
    ∧ (process_video ⟨1080, 1920, "shortest", none, false⟩
        ⟨true, true, true, false, true, true⟩).delivered = some Delivered.silent :=
  mux_failure_degraded_success ⟨1080, 1920, "shortest", none, false⟩
    ⟨true, true, true, false, true, true⟩ rfl rfl rfl rfl rfl rfl

/-- C8 counterexample: a run in which the decoder and writer open and an
    exception is then raised in the body (for example inside the frame
    loop) returns false without calling release() on either, refuting the
    claim that they are released on every exit path. -/
theorem release_skipped_on_exception :
    (process_video ⟨1080, 1920, "shortest", none, false⟩
        ⟨true, true, true, true, false, false⟩).capOpened = true
    ∧ (process_video ⟨1080, 1920, "shortest", none, false⟩
        ⟨true, true, true, true, false, false⟩).writerOpened = true
    ∧ (process_video ⟨1080, 1920, "shortest", none, false⟩
        ⟨true, true, true, true, false, false⟩).success = false
    ∧ (process_video ⟨1080, 1920, "shortest", none, false⟩
        ⟨true, true, true, true, false, false⟩).capReleased = false
    ∧ (process_video ⟨1080, 1920, "shortest", none, false⟩
        ⟨true, true, true, true, false, false⟩).writerReleased = false := by
  refine ⟨rfl, rfl, rfl, rfl, rfl⟩

/-- C8 amended: release() is called on the decoder and writer exactly on
    the non-exception path: every run that returns success has released
    both before returning, while a run in which an exception is raised
    after both are opened returns false without releasing either (the
    release calls are not in a finally block). -/
theorem release_on_exit_paths (cfg : RenderConfig) (env : RenderEnv) :
    ((process_video cfg env).success = true →
      (process_video cfg env).capReleased = true
      ∧ (process_video cfg env).writerReleased = true)
    ∧ (env.probeOk = true → env.capOpens = true → env.writerOpens = true →
        env.bodyExc = true →
      (process_video cfg env).success = false
      ∧ (process_video cfg env).capReleased = false
      ∧ (process_video cfg env).writerReleased = false) := by
  obtain ⟨po, co, wo, be, ha, mf⟩ := env
  cases po <;> cases co <;> cases wo <;> cases be <;> cases ha <;> cases mf <;>
    simp [process_video]

/-- C8 amended witness: a clean run releases both handles. -/
theorem release_on_exit_paths_witness :
    (process_video ⟨1080, 1920, "shortest", none, false⟩
        ⟨true, true, true, false, false, false⟩).capReleased = true
    ∧ (process_video ⟨1080, 1920, "shortest", none, false⟩
        ⟨true, true, true, false, false, false⟩).writerReleased = true :=
  (release_on_exit_paths ⟨1080, 1920, "shortest", none, false⟩
    ⟨true, true, true, false, false, false⟩).1 rfl

/-- C4: for nonnegative frame time t, positive segment duration d and a
    non-empty list of n caption bitmaps, the compositor overlays bitmap
    min(floor(t/d), n-1), which is never negative; concretely, for a 10s
    video at 30fps with 2 captions under policy shortest (target 10s,
    segment duration 5s), frames 0-149 show caption 0 and frames 150-299
    show caption 1. -/
theorem segment_index_spec (t d : ℚ) (n : ℕ) (ht : 0 ≤ t) (hd : 0 < d)
    (hn : 1 ≤ n) :
    segment_index t d n = min ⌊t / d⌋ ((n : ℤ) - 1)
    ∧ 0 ≤ segment_index t d n
    ∧ (∀ i : ℕ, i < 300 →
        segment_index ((i : ℚ) / 30)
          (segment_duration (target_duration "shortest" none 10 0) 2) 2
          = if i < 150 then 0 else 1) := by
  have hq : 0 ≤ t / d := div_nonneg ht hd.le
  have h1 : segment_index t d n = min ⌊t / d⌋ ((n : ℤ) - 1) := by
    unfold segment_index pyInt
    rw [if_pos hd, if_pos hq]
  refine ⟨h1, ?_, ?_⟩
  · rw [h1]
    refine le_min (Int.floor_nonneg.mpr hq) ?_
    omega
  · intro i hi
    have hseg : segment_duration (target_duration "shortest" none 10 0) 2 = 5 := by
      norm_num [segment_duration, target_duration, pyTruthy]
    rw [hseg]
    have hdiv : ((i : ℚ) / 30) / 5 = (i : ℚ) / 150 := by
      rw [div_div]
      norm_num
    have hfloor : pyInt (((i : ℚ) / 30) / 5) = ((i / 150 : ℕ) : ℤ) := by
      rw [hdiv]
      unfold pyInt
      rw [if_pos (by positivity)]
      have h150 : ((150 : ℚ)) = ((150 : ℕ) : ℚ) := by norm_num
      rw [h150, Rat.floor_natCast_div_natCast]
      exact (Int.natCast_div i 150).symm
    unfold segment_index
    rw [if_pos (by norm_num), hfloor]
    by_cases hlt : i < 150
    · have h0 : i / 150 = 0 := Nat.div_eq_of_lt hlt
      simp [h0, hlt]
    · have h1' : i / 150 = 1 := by omega
      simp [h1', hlt]

/-- C4 witness: frame time 7 with segment duration 5 over 2 captions
    selects bitmap min(floor(7/5), 1) = 1, and the index is nonnegative. -/
theorem segment_index_spec_witness :
    segment_index 7 5 2 = min ⌊(7 : ℚ) / 5⌋ ((2 : ℤ) - 1)
    ∧ 0 ≤ segment_index 7 5 2 :=
  ⟨(segment_index_spec 7 5 2 (by norm_num) (by norm_num) (by norm_num)).1,
   (segment_index_spec 7 5 2 (by norm_num) (by norm_num) (by norm_num)).2.1⟩

/-- C6: every line the word wrap produces either measures within
    maxWidth, or is one of the whitespace-split input words (a single
    word emitted as a line by itself, which happens exactly when that
    word alone overflows the width). Holds for every measuring function,
    hence for the font-metric width of _calc_line_size. -/
theorem hard_wrap_width (measure : List Char → ℕ) (text : List Char)
    (maxWidth : ℕ) :
    ∀ line ∈ hard_wrap_text measure text maxWidth,
      measure line ≤ maxWidth ∨ line ∈ pySplit text := by
  have key : ∀ (ws : List (List Char)) (st : List (List Char) × List Char),
      (∀ w ∈ ws, w ∈ pySplit text) →
      (∀ l ∈ st.1, measure l ≤ maxWidth ∨ l ∈ pySplit text) →
      (st.2 = [] ∨ measure st.2 ≤ maxWidth ∨ st.2 ∈ pySplit text) →
      (∀ l ∈ (ws.foldl (wrapStep measure maxWidth) st).1,
        measure l ≤ maxWidth ∨ l ∈ pySplit text)
      ∧ ((ws.foldl (wrapStep measure maxWidth) st).2 = []
        ∨ measure (ws.foldl (wrapStep measure maxWidth) st).2 ≤ maxWidth
        ∨ (ws.foldl (wrapStep measure maxWidth) st).2 ∈ pySplit text) := by
    intro ws
    induction ws with
    | nil => intro st _ h1 h2; exact ⟨h1, h2⟩
    | cons w ws ih =>
      intro st hw h1 h2
      rw [List.foldl_cons]
      apply ih
      · intro x hx
        exact hw x (List.mem_cons_of_mem w hx)
      · intro l hl
        unfold wrapStep at hl
        by_cases htest : measure (pyStrip (st.2 ++ ' ' :: w)) ≤ maxWidth
        · rw [if_pos htest] at hl
          exact h1 l hl
        · rw [if_neg htest] at hl
          by_cases hemp : st.2.isEmpty
          · rw [if_pos hemp] at hl
            exact h1 l hl
          · rw [if_neg hemp] at hl
            rcases List.mem_append.mp hl with hl | hl
            · exact h1 l hl
            · have hl2 : l = st.2 := List.mem_singleton.mp hl
              subst hl2
              rcases h2 with h2 | h2
              · exact absurd (List.isEmpty_iff.mpr h2) hemp
              · exact h2
      · unfold wrapStep
        by_cases htest : measure (pyStrip (st.2 ++ ' ' :: w)) ≤ maxWidth
        · rw [if_pos htest]
          exact Or.inr (Or.inl htest)
        · rw [if_neg htest]
          exact Or.inr (Or.inr (hw w (List.mem_cons_self w ws)))
  intro line hline
  unfold hard_wrap_text at hline
  have hmain := key (pySplit text) ([], [])
    (fun w hw => hw) (fun l hl => absurd hl (List.not_mem_nil l)) (Or.inl rfl)
  by_cases hemp : ((pySplit text).foldl (wrapStep measure maxWidth) ([], [])).2.isEmpty
  · simp only [hemp, if_pos] at hline
    exact hmain.1 line hline
  · simp only [hemp, Bool.false_eq_true, if_neg, not_false_iff] at hline
    rcases List.mem_append.mp hline with hl | hl
    · exact hmain.1 line hl
    · have hl2 := List.mem_singleton.mp hl
      subst hl2
      rcases hmain.2 with h | h
      · exact absurd (List.isEmpty_iff.mpr h) (by simpa using hemp)
      · exact h

/-- C6 witness: wrapping a text containing an overlong word at width 5
    (measuring a line by its character count) emits that word as a line
    by itself; the theorem instantiated at that line. -/
theorem hard_wrap_width_witness :
    "extraordinary".toList ∈
        hard_wrap_text List.length "hi extraordinary yo".toList 5
    ∧ (List.length "extraordinary".toList ≤ 5
        ∨ "extraordinary".toList ∈ pySplit "hi extraordinary yo".toList) :=
  ⟨by decide,
   hard_wrap_width List.length "hi extraordinary yo".toList 5
     "extraordinary".toList (by decide)⟩

/-- Bounds of the (possibly downscaled) text bitmap dimensions: within a
    frame of positive dimensions, both dimensions after overlayDims are
    at least 1 and at most the frame dimensions. -/
theorem overlayDims_le (frame text : ImgShape) (hfh : 1 ≤ frame.h)
    (hfw : 1 ≤ frame.w) (hth : 1 ≤ text.h) (htw : 1 ≤ text.w) :
    (overlayDims frame text).1 ≤ frame.h ∧ (overlayDims frame text).2 ≤ frame.w
    ∧ 1 ≤ (overlayDims frame text).1 ∧ 1 ≤ (overlayDims frame text).2 := by
  unfold overlayDims
  by_cases hb : frame.h < text.h ∨ frame.w < text.w
  · rw [if_pos hb]
    simp only
    have hthq : (0 : ℚ) < (text.h : ℚ) := by exact_mod_cast hth
    have htwq : (0 : ℚ) < (text.w : ℚ) := by exact_mod_cast htw
    set s : ℚ :=
      min ((frame.h : ℚ) / (text.h : ℚ)) ((frame.w : ℚ) / (text.w : ℚ)) * (9/10) with hs
    have hsnn : 0 ≤ s := by
      apply mul_nonneg _ (by norm_num)
      exact le_min (by positivity) (by positivity)
    have hH : (text.h : ℚ) * s ≤ (frame.h : ℚ) := by
      have step1 : (text.h : ℚ) * s
          ≤ (text.h : ℚ) * (((frame.h : ℚ) / (text.h : ℚ)) * (9/10)) := by
        apply mul_le_mul_of_nonneg_left _ hthq.le
        exact mul_le_mul_of_nonneg_right (min_le_left _ _) (by norm_num)
      have step2 : (text.h : ℚ) * (((frame.h : ℚ) / (text.h : ℚ)) * (9/10))
          = (frame.h : ℚ) * (9/10) := by
        field_simp
        ring
      have step3 : (frame.h : ℚ) * (9/10) ≤ (frame.h : ℚ) := by
        have hnn : (0 : ℚ) ≤ (frame.h : ℚ) := by positivity
        nlinarith [hnn]
      linarith
    have hW : (text.w : ℚ) * s ≤ (frame.w : ℚ) := by
      have step1 : (text.w : ℚ) * s
          ≤ (text.w : ℚ) * (((frame.w : ℚ) / (text.w : ℚ)) * (9/10)) := by
        apply mul_le_mul_of_nonneg_left _ htwq.le
        exact mul_le_mul_of_nonneg_right (min_le_right _ _) (by norm_num)
      have step2 : (text.w : ℚ) * (((frame.w : ℚ) / (text.w : ℚ)) * (9/10))
          = (frame.w : ℚ) * (9/10) := by
        field_simp
        ring
      have step3 : (frame.w : ℚ) * (9/10) ≤ (frame.w : ℚ) := by
        have hnn : (0 : ℚ) ≤ (frame.w : ℚ) := by positivity
        nlinarith [hnn]
      linarith
    have hfloorH : (pyInt ((text.h : ℚ) * s)).toNat ≤ frame.h := by
      unfold pyInt
      rw [if_pos (mul_nonneg hthq.le hsnn), Int.toNat_le]
      calc ⌊(text.h : ℚ) * s⌋ ≤ ⌊(frame.h : ℚ)⌋ := Int.floor_le_floor hH
        _ = (frame.h : ℤ) := Int.floor_natCast _
    have hfloorW : (pyInt ((text.w : ℚ) * s)).toNat ≤ frame.w := by
      unfold pyInt
      rw [if_pos (mul_nonneg htwq.le hsnn), Int.toNat_le]
      calc ⌊(text.w : ℚ) * s⌋ ≤ ⌊(frame.w : ℚ)⌋ := Int.floor_le_floor hW
        _ = (frame.w : ℤ) := Int.floor_natCast _
    exact ⟨max_le hfh hfloorH, max_le hfw hfloorW, le_max_left _ _, le_max_left _ _⟩
  · rw [if_neg hb]
    push_neg at hb
    exact ⟨hb.1, hb.2, hth, htw⟩

/-- C10: overlay_text_on_frame returns the frame with unchanged shape,
    and whenever it blends a region, that region lies within the frame
    bounds: nonnegative anchor, anchor plus text dimension at most the
    frame dimension, for every position (including raw coordinates) and
    margin, on any frame with positive dimensions. -/
theorem overlay_frame_bounds (frame text : ImgShape) (pos : OverlayPos)
    (marginPct : ℚ) (hfh : 1 ≤ frame.h) (hfw : 1 ≤ frame.w) :
    (overlay_text_on_frame frame text pos marginPct).1 = frame
    ∧ ∀ x y th tw,
        (overlay_text_on_frame frame text pos marginPct).2 = some (x, y, th, tw) →
        0 ≤ x ∧ 0 ≤ y ∧ x + (tw : ℤ) ≤ (frame.w : ℤ) ∧ y + (th : ℤ) ≤ (frame.h : ℤ)
        ∧ 1 ≤ th ∧ 1 ≤ tw := by
  unfold overlay_text_on_frame
  by_cases hempty : text.h * text.w * text.c = 0
  · rw [if_pos hempty]
    refine ⟨rfl, ?_⟩
    intro x y th tw h
    simp at h
  · rw [if_neg hempty]
    have hth : 1 ≤ text.h := by
      rcases Nat.eq_zero_or_pos text.h with h | h
      · exact absurd (by rw [h]; ring) hempty
      · exact h
    have htw : 1 ≤ text.w := by
      rcases Nat.eq_zero_or_pos text.w with h | h
      · exact absurd (by rw [h]; ring) hempty
      · exact h
    obtain ⟨hH, hW, h1, h2⟩ := overlayDims_le frame text hfh hfw hth htw
    refine ⟨rfl, ?_⟩
    intro x y th tw h
    simp only [Option.some.injEq, Prod.mk.injEq] at h
    obtain ⟨hx, hy, hth', htw'⟩ := h
    subst hx
    subst hy
    subst hth'
    subst htw'
    cases pos with
    | center =>
      refine ⟨le_max_left _ _, le_max_left _ _, ?_, ?_, h1, h2⟩ <;> omega
    | top =>
      refine ⟨le_max_left _ _, le_max_left _ _, ?_, ?_, h1, h2⟩ <;>
        generalize pyInt ((frame.h : ℚ) * marginPct) = m <;> omega
    | bottom =>
      refine ⟨le_max_left _ _, le_max_left _ _, ?_, ?_, h1, h2⟩ <;>
        generalize pyInt ((frame.h : ℚ) * marginPct) = m <;> omega
    | custom a b =>
      refine ⟨le_max_left _ _, le_max_left _ _, ?_, ?_, h1, h2⟩ <;> omega

/-- C10 witness: a 4-channel 50 x 60 bitmap on a 20 x 30 frame is
    downscaled and placed in bounds at the center. -/
theorem overlay_frame_bounds_witness :
    (overlay_text_on_frame ⟨20, 30, 3⟩ ⟨50, 60, 4⟩ OverlayPos.center (16/100)).1
      = ⟨20, 30, 3⟩
    ∧ ∀ x y th tw,
        (overlay_text_on_frame ⟨20, 30, 3⟩ ⟨50, 60, 4⟩ OverlayPos.center
          (16/100)).2 = some (x, y, th, tw) →
        0 ≤ x ∧ 0 ≤ y ∧ x + (tw : ℤ) ≤ ((30 : ℕ) : ℤ) ∧ y + (th : ℤ) ≤ ((20 : ℕ) : ℤ)
        ∧ 1 ≤ th ∧ 1 ≤ tw :=
  overlay_frame_bounds ⟨20, 30, 3⟩ ⟨50, 60, 4⟩ OverlayPos.center (16/100)
    (by norm_num) (by norm_num)

/-- cnt at the next step: one more when step s picks video b. -/
theorem cnt_succ (V s b : ℕ) :
    cnt V (s + 1) b = cnt V s b + if s % V = b then 1 else 0 := by
  unfold cnt
  rw [List.range_succ, List.countP_append]
  by_cases h : s % V = b <;> simp [List.countP_cons, h]

/-- Division and remainder of a successor by a positive modulus: the
    remainder either steps up or wraps to zero. -/
theorem div_mod_succ (V s : ℕ) (hV : 0 < V) :
    ((s + 1) / V = s / V ∧ (s + 1) % V = s % V + 1 ∧ s % V + 1 < V)
    ∨ ((s + 1) / V = s / V + 1 ∧ (s + 1) % V = 0 ∧ s % V + 1 = V) := by
  have hm : s % V < V := Nat.mod_lt _ hV
  have hmd := Nat.mod_add_div s V
  by_cases h : s % V + 1 < V
  · left
    have hrw : s + 1 = (s % V + 1) + V * (s / V) := by omega
    refine ⟨?_, ?_, h⟩
    · rw [hrw, Nat.add_mul_div_left _ _ hV, Nat.div_eq_of_lt h, Nat.zero_add]
    · rw [hrw, Nat.add_mul_mod_self_left, Nat.mod_eq_of_lt h]
  · right
    have he : s % V + 1 = V := by omega
    have hexp : V * (s / V + 1) = V * (s / V) + V := by ring
    have hrw : s + 1 = V * (s / V + 1) := by omega
    refine ⟨?_, ?_, he⟩
    · rw [hrw, Nat.mul_div_cancel_left _ hV]
    · rw [hrw, Nat.mul_mod_right]

/-- Closed form of cnt: video b has been picked s / V times in s steps,
    plus one more when b lies before the current remainder. -/
theorem cnt_closed (V s b : ℕ) (hV : 0 < V) (hb : b < V) :
    cnt V s b = s / V + if b < s % V then 1 else 0 := by
  induction s with
  | zero => simp [cnt]
  | succ s ih =>
    rw [cnt_succ, ih]
    rcases div_mod_succ V s hV with ⟨h1, h2, h3⟩ | ⟨h1, h2, h3⟩ <;>
      rw [h1, h2] <;> split_ifs <;> omega

/-- The unique-jobs loop started with counters matching cnt at step s
    maps each remaining index to its closed-form job. -/
theorem uniqueLoop_eq (vids auds : List String) (rows : List (List String))
    (V C A : ℕ) (hV : 0 < V) :
    ∀ (n s : ℕ) (picks : List ℕ), picks.length = V →
      (∀ b, b < V → picks.getD b 0 = cnt V s b) →
      uniqueLoop vids auds rows V C A picks (List.range' s n)
        = (List.range' s n).map (uniqueJobAt vids auds rows V C A) := by
  intro n
  induction n with
  | zero => intro s picks _ _; rfl
  | succ n ih =>
    intro s picks hlen hinv
    have hmod : s % V < V := Nat.mod_lt _ hV
    rw [List.range'_succ, List.map_cons]
    show uniqueLoop vids auds rows V C A picks (s :: List.range' (s + 1) n) = _
    rw [uniqueLoop]
    congr 1
    · unfold uniqueJobAt
      rw [hinv (s % V) hmod]
    · apply ih (s + 1)
      · rw [List.length_set]
        exact hlen
      · intro b hb
        rw [cnt_succ]
        by_cases hbs : b = s % V
        · subst hbs
          rw [hinv (s % V) hmod] at *
          have hblen : s % V < picks.length := by rw [hlen]; exact hmod
          simp [List.getD_eq_getElem?_getD, List.getElem?_set_self hblen,
            hinv (s % V) hmod]
        · have hne : s % V ≠ b := fun h => hbs h.symm
          rw [List.getD_eq_getElem?_getD, List.getElem?_set_ne hne,
            ← List.getD_eq_getElem?_getD, hinv b hb]
          simp [hne]

/-- C1: for V >= 1 videos, at least one caption combination, A audios
    and every want, the deterministic-unique builder emits exactly
    N = min(want, V * C * max(1, A)) jobs; the job of step t picks video
    b = t mod V with k = cnt V t b prior picks of that video, caption
    index (b mod C + k) mod C and matching audio index; every video pick
    count is floor(N/V) or ceil(N/V); and the concrete five-job example
    holds. -/
theorem unique_builder_spec (vids auds : List String) (rows : List (List String))
    (want : ℕ) (hv : vids ≠ []) (hr : rows ≠ []) :
    ((build_unique_jobs vids auds rows want).length
      = min want (vids.length * rows.length * max 1 auds.length))
    ∧ (∀ t, t < min want (vids.length * rows.length * max 1 auds.length) →
        (build_unique_jobs vids auds rows want).getD t ("", none, [], 0)
          = (vids.getD (t % vids.length) "",
             (if auds.isEmpty then none
              else some (auds.getD ((t % vids.length % auds.length
                  + cnt vids.length t (t % vids.length)) % auds.length) "")),
             rows.getD ((t % vids.length % rows.length
                  + cnt vids.length t (t % vids.length)) % rows.length) [],
             (t % vids.length % rows.length
                  + cnt vids.length t (t % vids.length)) % rows.length))
    ∧ (∀ b, b < vids.length →
        cnt vids.length
            (min want (vids.length * rows.length * max 1 auds.length)) b
          = min want (vids.length * rows.length * max 1 auds.length) / vids.length
        ∨ cnt vids.length
            (min want (vids.length * rows.length * max 1 auds.length)) b
          = (min want (vids.length * rows.length * max 1 auds.length)
              + vids.length - 1) / vids.length)
    ∧ build_unique_jobs ["v1", "v2", "v3"] [] [["c1"], ["c2"]] 5
        = [("v1", none, ["c1"], 0), ("v2", none, ["c2"], 1),
           ("v3", none, ["c1"], 0), ("v1", none, ["c2"], 1),
           ("v2", none, ["c1"], 0)] := by
  have hV : 0 < vids.length := List.length_pos.mpr hv
  have hR : 0 < rows.length := List.length_pos.mpr hr
  have hC : max 1 rows.length = rows.length := max_eq_right hR
  have hA : (if auds.isEmpty then 1 else auds.length) = max 1 auds.length := by
    cases auds with
    | nil => rfl
    | cons a as => simp [List.isEmpty_cons, Nat.max_eq_right (by simp : 1 ≤ (a :: as).length)]
  have hmain : build_unique_jobs vids auds rows want
      = (List.range (min want (vids.length * rows.length * max 1 auds.length))).map
          (uniqueJobAt vids auds rows vids.length rows.length (max 1 auds.length)) := by
    unfold build_unique_jobs
    rw [if_neg (by omega)]
    rw [hC, hA, List.range_eq_range']
    apply uniqueLoop_eq vids auds rows vids.length rows.length (max 1 auds.length) hV
    · exact List.length_replicate _ _
    · intro b hb
      simp only [cnt, List.range_zero, List.countP_nil, List.getD_eq_getElem?_getD,
        List.getElem?_replicate]
      split <;> rfl
  refine ⟨?_, ?_, ?_, by decide⟩
  · rw [hmain, List.length_map, List.length_range]
  · intro t ht
    rw [hmain]
    have hget : ((List.range (min want (vids.length * rows.length * max 1 auds.length))).map
        (uniqueJobAt vids auds rows vids.length rows.length (max 1 auds.length))).getD t
          ("", none, [], 0)
        = uniqueJobAt vids auds rows vids.length rows.length (max 1 auds.length) t := by
      rw [List.getD_eq_getElem?_getD, List.getElem?_map, List.getElem?_range ht]
      rfl
    rw [hget]
    unfold uniqueJobAt
    cases hAe : auds.isEmpty with
    | true =>
      simp only [hAe, if_pos, if_true]
      rw [if_pos hR]
    | false =>
      have hAl : 0 < auds.length := by
        cases auds with
        | nil => simp at hAe
        | cons a as => simp
      have hA2 : max 1 auds.length = auds.length := max_eq_right hAl
      simp only [hAe, Bool.false_eq_true, if_false]
      rw [hA2, if_pos hR]
  · intro b hb
    generalize min want (vids.length * rows.length * max 1 auds.length) = N
    rw [cnt_closed vids.length N b hV hb]
    by_cases hlt : b < N % vids.length
    · right
      have hm : N % vids.length < vids.length := Nat.mod_lt _ hV
      have hmd := Nat.mod_add_div N vids.length
      have hexp : vids.length * (N / vids.length + 1)
          = vids.length * (N / vids.length) + vids.length := by ring
      have h1 : 1 ≤ N % vids.length := by omega
      have hrw : N + vids.length - 1
          = (N % vids.length - 1) + vids.length * (N / vids.length + 1) := by omega
      rw [hrw, Nat.add_mul_div_left _ _ hV,
        Nat.div_eq_of_lt (show N % vids.length - 1 < vids.length by omega)]
      simp [hlt]
    · left
      simp [hlt]

/-- C1 witness: two videos, one caption row, no audio, want 3 yields
    min(3, 2) = 2 jobs. -/
theorem unique_builder_spec_witness :
    (build_unique_jobs ["a", "b"] [] [["x"]] 3).length = 2 := by
  have h := (unique_builder_spec ["a", "b"] [] [["x"]] 3 (by decide) (by decide)).1
  simpa using h

/-- Python min over a nonempty list returns one of its elements. -/
theorem pymin_mem {α : Type} (key : α → ℚ) (x : α) (xs : List α) :
    pymin key x xs ∈ x :: xs := by
  unfold pymin
  induction xs generalizing x with
  | nil => simp
  | cons y ys ih =>
    simp only [List.foldl_cons]
    by_cases h : key y < key x
    · rw [if_pos h]
      exact List.mem_cons_of_mem x (ih y)
    · rw [if_neg h]
      rcases List.mem_cons.mp (ih x) with h2 | h2
      · rw [h2]
        exact List.mem_cons_self x (y :: ys)
      · exact List.mem_cons_of_mem x (List.mem_cons_of_mem y h2)

/-- While fewer indices are used than candidates exist, the avail filter
    of the selection loop is nonempty. -/
theorem avail_nonempty (rnd : List RenderJob) (used : List ℕ) (hnd : used.Nodup)
    (hlt : ∀ i ∈ used, i < rnd.length) (hcard : used.length < rnd.length) :
    (rnd.enum.filter (fun p => !(used.contains p.1))) ≠ [] := by
  intro hempty
  have hall : ∀ i, i < rnd.length → i ∈ used := by
    intro i hi
    by_contra hni
    have hmem : (i, rnd.get ⟨i, hi⟩) ∈ rnd.enum := by
      rw [List.mem_enum_iff_getElem?]
      simp [List.getElem?_eq_getElem hi]
    have hpass : (fun (p : ℕ × RenderJob) => !(used.contains p.1)) (i, rnd.get ⟨i, hi⟩)
        = true := by
      simp [hni]
    have : (i, rnd.get ⟨i, hi⟩) ∈ rnd.enum.filter (fun p => !(used.contains p.1)) :=
      List.mem_filter.mpr ⟨hmem, hpass⟩
    rw [hempty] at this
    exact absurd this (List.not_mem_nil _)
  have hsub : List.range rnd.length ⊆ used :=
    fun i hi => hall i (List.mem_range.mp hi)
  have hsp := List.subperm_of_subset (List.nodup_range rnd.length) hsub
  have := hsp.length_le
  rw [List.length_range] at this
  omega

/-- Element of the avail filter: its index is fresh and in range, and its
    job component is the pool entry at that index. -/
theorem avail_elem (rnd : List RenderJob) (used : List ℕ) (p : ℕ × RenderJob)
    (hp : p ∈ rnd.enum.filter (fun q => !(used.contains q.1))) :
    p.1 ∉ used ∧ p.1 < rnd.length ∧ rnd.getD p.1 ("", none, [], 0) = p.2 := by
  obtain ⟨hmem, hpass⟩ := List.mem_filter.mp hp
  have hidx := List.mem_enum_iff_getElem?.mp hmem
  refine ⟨by simpa using hpass, ?_, ?_⟩
  · by_contra hge
    rw [List.getElem?_eq_none (by omega)] at hidx
    cases hidx
  · rw [List.getD_eq_getElem?_getD, hidx]
    rfl

/-- The selection loop adds exactly one job per unit of fuel while
    candidates remain. -/
theorem selectLoop_length (tokens : RenderJob → String × String × String)
    (w : SelWeights) (mix : SelMix) (strength windowPenalty : ℚ)
    (recentWindow : ℕ) (rnd : List RenderJob) :
    ∀ (fuel : ℕ) (used : List ℕ) (st : SelState) (sel : List RenderJob),
      used.Nodup → (∀ i ∈ used, i < rnd.length) →
      fuel + used.length ≤ rnd.length →
      (selectLoop tokens w mix strength windowPenalty recentWindow rnd
        fuel used st sel).length = sel.length + fuel := by
  intro fuel
  induction fuel with
  | zero => intro used st sel _ _ _; simp [selectLoop]
  | succ fuel ih =>
    intro used st sel hnd hbound hcard
    have hne : (rnd.enum.filter (fun p => !(used.contains p.1))) ≠ [] :=
      avail_nonempty rnd used hnd hbound (by omega)
    cases hav : rnd.enum.filter (fun p => !(used.contains p.1)) with
    | nil => exact absurd hav hne
    | cons a rest =>
      simp only [selectLoop, hav]
      have hbest : pymin (fun p => selScore tokens w mix strength windowPenalty st p.2)
          a rest ∈ rnd.enum.filter (fun p => !(used.contains p.1)) := by
        rw [hav]
        exact pymin_mem _ a rest
      obtain ⟨hfresh, hlt, _⟩ := avail_elem rnd used _ hbest
      rw [ih _ _ _ (List.nodup_cons.mpr ⟨hfresh, hnd⟩)
        (by intro i hi; rcases List.mem_cons.mp hi with h | h;
            · rw [h]; exact hlt
            · exact hbound i h)
        (by simp; omega)]
      simp
      omega

/-- The selection loop only appends pool entries at fresh indices:
    its output extends sel by jobs at distinct unused indices of rnd. -/
theorem selectLoop_subset (tokens : RenderJob → String × String × String)
    (w : SelWeights) (mix : SelMix) (strength windowPenalty : ℚ)
    (recentWindow : ℕ) (rnd : List RenderJob) :
    ∀ (fuel : ℕ) (used : List ℕ) (st : SelState) (sel : List RenderJob),
      ∃ ixs : List ℕ, ixs.Nodup ∧ (∀ i ∈ ixs, i < rnd.length)
        ∧ (∀ i ∈ ixs, i ∉ used)
        ∧ selectLoop tokens w mix strength windowPenalty recentWindow rnd
            fuel used st sel
          = sel ++ ixs.map (fun i => rnd.getD i ("", none, [], 0)) := by
  intro fuel
  induction fuel with
  | zero =>
    intro used st sel
    exact ⟨[], List.nodup_nil, by simp, by simp, by simp [selectLoop]⟩
  | succ fuel ih =>
    intro used st sel
    cases hav : rnd.enum.filter (fun p => !(used.contains p.1)) with
    | nil =>
      refine ⟨[], List.nodup_nil, by simp, by simp, ?_⟩
      simp only [selectLoop, hav]
      simp
    | cons a rest =>
      set best := pymin (fun p => selScore tokens w mix strength windowPenalty st p.2)
        a rest with hbestdef
      have hbest : best ∈ rnd.enum.filter (fun p => !(used.contains p.1)) := by
        rw [hav, hbestdef]
        exact pymin_mem _ a rest
      obtain ⟨hfresh, hlt, hval⟩ := avail_elem rnd used best hbest
      obtain ⟨ixs, hnd, hbound2, hfresh2, heq⟩ :=
        ih (best.1 :: used) (selUpdate tokens recentWindow st best.2) (sel ++ [best.2])
      refine ⟨best.1 :: ixs, ?_, ?_, ?_, ?_⟩
      · refine List.nodup_cons.mpr ⟨?_, hnd⟩
        intro hmem
        exact absurd (List.mem_cons_self best.1 used) (hfresh2 best.1 hmem)
      · intro i hi
        rcases List.mem_cons.mp hi with h | h
        · rw [h]; exact hlt
        · exact hbound2 i h
      · intro i hi
        rcases List.mem_cons.mp hi with h | h
        · rw [h]; exact hfresh
        · intro hiu
          exact hfresh2 i h (List.mem_cons_of_mem _ hiu)
      · simp only [selectLoop, hav, ← hbestdef]
        rw [heq, List.map_cons, hval]
        simp

/-- C7: for every candidate pool (in any shuffle order) and every targetN,
    the diversity-weighted selector returns exactly
    min(targetN, number of candidates) jobs, each drawn from the pool
    without replacement: the output is the image of a duplicate-free list
    of pool indices. -/
theorem select_jobs_diverse_spec (tokens : RenderJob → String × String × String)
    (jobs : List RenderJob) (targetN : ℕ) (mix : SelMix)
    (strength windowPenalty : ℚ) (recentWindow : ℕ) (w : SelWeights) :
    (select_jobs_diverse tokens jobs targetN mix strength windowPenalty
        recentWindow w).length = min targetN jobs.length
    ∧ ∃ ixs : List ℕ, ixs.Nodup ∧ (∀ i ∈ ixs, i < jobs.length)
        ∧ select_jobs_diverse tokens jobs targetN mix strength windowPenalty
            recentWindow w
          = ixs.map (fun i => jobs.getD i ("", none, [], 0)) := by
  unfold select_jobs_diverse
  by_cases hj : jobs.isEmpty
  · rw [if_pos hj]
    have : jobs.length = 0 := by
      cases jobs with
      | nil => rfl
      | cons a as => simp at hj
    refine ⟨by simp [this], ⟨[], List.nodup_nil, by simp, by simp⟩⟩
  · rw [if_neg hj]
    constructor
    · rw [selectLoop_length tokens w mix strength windowPenalty recentWindow jobs
        (min targetN jobs.length) [] initSelState [] List.nodup_nil (by simp)
        (by simp)]
      simp
    · obtain ⟨ixs, hnd, hbound, _, heq⟩ :=
        selectLoop_subset tokens w mix strength windowPenalty recentWindow jobs
          (min targetN jobs.length) [] initSelState []
      exact ⟨ixs, hnd, hbound, by rw [heq]; simp⟩
